import Mathlib

/-!
Shallow embedding of the corrosion synchronization core:
`crates/corro-types/src/agent.rs` (per-actor version ledger, registry) and
`crates/corro-types/src/broadcast.rs` (wire message codec, dispatch adapter).

Machine integers (`i64`, `u32`, `u64`, bytes) are embedded as `Int`/`Nat`
with explicit range side conditions where overflow or width matters.
Fallible paths return `Except`; the `panic!` sites of `BookWriter::insert`
and the `len - 4` underflow of `Message::from_buf` are explicit result
constructors.
-/

/-- `uhlc::NTP64` timestamp: a 64-bit value; the ledger only compares it for
equality, so it is embedded as a bare `Nat`. -/
abbrev Timestamp := Nat

/-- `KnownDbVersion` (agent.rs): replication state of one version.
`Part` embeds the source's `Partial` variant; its `seqs` field is a
`RangeInclusiveSet<i64>`, embedded as the list of inclusive ranges the set
stores (rangemap keeps them disjoint, sorted and coalesced). -/
inductive KnownDbVersion where
  | Current (db_version : Int) (last_seq : Int) (ts : Timestamp)
  | Part (seqs : List (Int × Int)) (last_seq : Int) (ts : Timestamp)
  | Cleared
  deriving DecidableEq

/-- Membership test of a `RangeInclusiveSet<i64>` given as its range list. -/
def rmem (x : Int) (s : List (Int × Int)) : Bool :=
  s.any (fun p => decide (p.1 ≤ x) && decide (x ≤ p.2))

/-- `RangeInclusiveSet::insert` of one inclusive range `[lo, hi]`: every
stored range that overlaps or touches it is absorbed into one range
(rangemap coalesces adjacent ranges of an integer set). -/
def rinsert (lo hi : Int) : List (Int × Int) → List (Int × Int)
  | [] => [(lo, hi)]
  | (a, b) :: rest =>
    if b + 1 < lo then (a, b) :: rinsert lo hi rest
    else if hi + 1 < a then (lo, hi) :: (a, b) :: rest
    else rinsert (min a lo) (max b hi) rest

/-- `Extend for RangeInclusiveSet`: insert every range of `src` into `dst`
(`seqs.extend(old_seqs.clone())` in `BookWriter::insert`). -/
def rextend (dst src : List (Int × Int)) : List (Int × Int) :=
  src.foldl (fun acc p => rinsert p.1 p.2 acc) dst

/-- Canonical-form invariant of a stored `RangeInclusiveSet`: ranges
nonempty, sorted, and separated by a gap of at least one (touching ranges
would have been coalesced by the store). -/
def rwf : List (Int × Int) → Bool
  | [] => true
  | [(a, b)] => decide (a ≤ b)
  | (a, b) :: (c, d) :: rest =>
    decide (a ≤ b) && decide (b + 1 < c) && rwf ((c, d) :: rest)

/-- The set of integers covered by a range list, for stating set-level
properties of `seqs` merges. -/
def rset (s : List (Int × Int)) : Set Int := fun x => rmem x s = true

/-- `BookedVersions = RangeInclusiveMap<i64, KnownDbVersion>`, embedded as
its sorted list of (inclusive range, value) entries. -/
abbrev BookedM := List ((Int × Int) × KnownDbVersion)

/-- `RangeInclusiveMap::get_key_value`: the stored (range, value) entry whose
range contains `v`. -/
def getKeyValue (v : Int) : BookedM → Option ((Int × Int) × KnownDbVersion)
  | [] => none
  | ((a, b), w) :: rest =>
    if decide (a ≤ v) && decide (v ≤ b) then some ((a, b), w)
    else getKeyValue v rest

/-- `RangeInclusiveMap::get`: the value stored at key `v`. -/
def lookupV (v : Int) (m : BookedM) : Option KnownDbVersion :=
  (getKeyValue v m).map Prod.snd

/-- `RangeInclusiveMap::contains_key`. -/
def containsKey (v : Int) (m : BookedM) : Bool :=
  (getKeyValue v m).isSome

/-- `Iterator::max` over a list of integers. -/
def listMax : List Int → Option Int
  | [] => none
  | x :: rest =>
    match listMax rest with
    | none => some x
    | some y => some (max x y)

/-- `self.0.read().iter().map(|(k, _v)| *k.end()).max()`: the `last()`
operation of `Booked` / `BookWriter`. -/
def lastVer (m : BookedM) : Option Int :=
  listMax (m.map (fun e => e.1.2))

/-- The erase half of `RangeInclusiveMap::insert (v..=v, _)`: remove key `v`
from the map's coverage, splitting or truncating the range that holds it. -/
def eraseKey (v : Int) : BookedM → BookedM
  | [] => []
  | ((a, b), w) :: rest =>
    (if decide (a ≤ v) && decide (v ≤ b) then
      (if decide (a ≤ v - 1) then [((a, v - 1), w)] else []) ++
        (if decide (v + 1 ≤ b) then [((v + 1, b), w)] else [])
     else [((a, b), w)]) ++ eraseKey v rest

/-- Insert the singleton entry `v..=v ↦ w` at its sorted position (after the
key has been erased from coverage). -/
def sortedInsert (v : Int) (wv : KnownDbVersion) : BookedM → BookedM
  | [] => [((v, v), wv)]
  | ((a, b), w) :: rest =>
    if v < a then ((v, v), wv) :: ((a, b), w) :: rest
    else ((a, b), w) :: sortedInsert v wv rest

/-- One coalescing step: merge a new head with the next entry when their
ranges touch and their values are equal (`RangeInclusiveMap` keeps such
neighbours merged into a single range). -/
def coalesceCons (e : (Int × Int) × KnownDbVersion) : BookedM → BookedM
  | [] => [e]
  | f :: rest =>
    if decide (e.1.2 + 1 = f.1.1) && decide (e.2 = f.2) then
      ((e.1.1, f.1.2), e.2) :: rest
    else e :: f :: rest

/-- Re-coalesce a sorted entry list. -/
def coalesce : BookedM → BookedM
  | [] => []
  | e :: rest => coalesceCons e (coalesce rest)

/-- `RangeInclusiveMap::insert (v..=v, w)`: overwrite the overlapped key,
insert the singleton range, coalesce equal-valued touching neighbours. -/
def mapInsert (v : Int) (w : KnownDbVersion) (m : BookedM) : BookedM :=
  coalesce (sortedInsert v w (eraseKey v m))

/-- `Booked::insert` (and the insert done by `Bookie::add`): a bare
`RangeInclusiveMap` insert of `version..=version`, with no merge checks. -/
def bookedInsert (v : Int) (w : KnownDbVersion) (m : BookedM) : BookedM :=
  mapInsert v w m

/-- `Booked::contains` / `BookWriter::contains`. -/
def bookedContains (v : Int) (m : BookedM) : Bool := containsKey v m

/-- `Booked::last` / `BookWriter::last`. -/
def bookedLast (m : BookedM) : Option Int := lastVer m

/-- Sortedness below a strict lower bound `lb`: every range is nonempty,
starts above `lb`, and ranges are strictly separated. -/
def swfFrom (lb : Int) : BookedM → Bool
  | [] => true
  | ((a, b), _) :: rest =>
    decide (lb < a) && decide (a ≤ b) && swfFrom b rest

/-- Sorted map invariant: nonempty ranges, strictly separated. -/
def swf : BookedM → Bool
  | [] => true
  | ((a, b), _) :: rest => decide (a ≤ b) && swfFrom b rest

/-- `mwfFrom lb lw l`: sorted as in `swfFrom`, and additionally no entry
touching its predecessor (end `lb`, value `lw`) carries an equal value —
the canonical form `RangeInclusiveMap` maintains. -/
def mwfFrom (lb : Int) (lw : KnownDbVersion) : BookedM → Bool
  | [] => true
  | ((a, b), w) :: rest =>
    decide (lb < a) && decide (a ≤ b) &&
      !(decide (lb + 1 = a) && decide (lw = w)) && mwfFrom b w rest

/-- Canonical (fully coalesced) map invariant. -/
def mwf : BookedM → Bool
  | [] => true
  | ((a, b), w) :: rest => decide (a ≤ b) && mwfFrom b w rest

/-- The four `panic!` sites of `BookWriter::insert` (agent.rs):
`rangeKey`: "unexpected range key when trying to merge partial sequence of
changes"; `divergentLastSeq`: "divergent last_seq when attempting to merge
booked seq ranges"; `divergentTs`: "divergent timestamp when attempting to
merge booked seq ranges"; `nonPartValue`: "unexpected non-partial booked
value". -/
inductive PanicReason where
  | rangeKey
  | divergentLastSeq
  | divergentTs
  | nonPartValue
  deriving DecidableEq

/-- Result of `BookWriter::insert`: the updated map, or a process-aborting
`panic!`. -/
inductive InsertResult where
  | ok (m : BookedM)
  | panicked (why : PanicReason)
  deriving DecidableEq

def isPanicked : InsertResult → Bool
  | .ok _ => false
  | .panicked _ => true

/-- `BookWriter::insert` (agent.rs): a `Partial` incoming value is merged
with the existing entry under the source's checks; every other incoming
value, and a `Partial` landing on an uncovered version, is stored bare. -/
def writerInsert (version : Int) (kv : KnownDbVersion) (m : BookedM) :
    InsertResult :=
  match kv with
  | .Part seqs last_seq ts =>
    match getKeyValue version m with
    | some ((a, b), value) =>
      if a ≠ b then .panicked .rangeKey
      else
        match value with
        | .Part old_seqs old_last_seq old_ts =>
          if old_last_seq ≠ last_seq then .panicked .divergentLastSeq
          else if old_ts ≠ ts then .panicked .divergentTs
          else .ok (mapInsert version
            (.Part (rextend seqs old_seqs) last_seq ts) m)
        | _ => .panicked .nonPartValue
    | none => .ok (mapInsert version (.Part seqs last_seq ts) m)
  | _ => .ok (mapInsert version kv m)

/-- Modelled from the spec: `ActorId` (crate `corro-types::actor`, not under
src/) is a stable opaque 16-byte identifier whose byte layout is owned
externally; embedded as its raw byte list. -/
abbrev ActorId := List Nat

/-- `Bookie` (agent.rs): the actor → ledger registry. A `Booked` handle is
an `Arc` clone of the shared ledger; handle identity is embedded as an
index into a shared store, so two handles denote the same shared ledger
exactly when they carry the same index. -/
structure BookieSt where
  ledgers : List (ActorId × Nat)
  store : List BookedM
  deriving DecidableEq

def lookupActor (a : ActorId) : List (ActorId × Nat) → Option Nat
  | [] => none
  | (x, i) :: rest => if x = a then some i else lookupActor a rest

/-- `Bookie::for_actor`: `w.entry(actor_id).or_default().clone()` — return
the existing handle, or create an empty ledger and return its handle. -/
def forActor (s : BookieSt) (a : ActorId) : Nat × BookieSt :=
  match lookupActor a s.ledgers with
  | some i => (i, s)
  | none =>
    (s.store.length,
      { ledgers := s.ledgers ++ [(a, s.store.length)],
        store := s.store ++ [[]] })

/-- The ledger a handle refers to. -/
def bookieLedger (s : BookieSt) (h : Nat) : BookedM := s.store.getD h []

/-- `Bookie::add`: get-or-create the actor's ledger, then `Booked::insert`
(the unchecked map insert) into it. -/
def bookieAdd (s : BookieSt) (a : ActorId) (v : Int) (kv : KnownDbVersion) :
    BookieSt :=
  let p := forActor s a
  { p.2 with store := p.2.store.set p.1 (bookedInsert v kv (bookieLedger p.2 p.1)) }

/-- Fold a sequence of `Booked::insert` calls over a ledger. -/
def insertAll (l : List (Int × KnownDbVersion)) (m : BookedM) : BookedM :=
  l.foldl (fun acc p => bookedInsert p.1 p.2 acc) m

def isCurrent : KnownDbVersion → Bool
  | .Current _ _ _ => true
  | _ => false

/-- The set of versions a ledger contains, for set-level statements. -/
def keySet (m : BookedM) : Set Int := fun x => containsKey x m = true

/-- The set of integers in a list, for set-level statements. -/
def listSet (l : List Int) : Set Int := fun x => x ∈ l

/-! ## Wire message codec (broadcast.rs) -/

/-- Little-endian byte encoding of `n` on `k` bytes (speedy's scalar and
length encodings are little-endian). -/
def natToLE : Nat → Nat → List Nat
  | 0, _ => []
  | k + 1, n => n % 256 :: natToLE k (n / 256)

/-- Little-endian byte decoding. -/
def leToNat : List Nat → Nat
  | [] => 0
  | b :: rest => b % 256 + 256 * leToNat rest

/-- 4-byte big-endian encoding (`BufMut::put_u32`, and the length field the
`LengthDelimitedCodec` writes). -/
def natToBE4 (n : Nat) : List Nat :=
  [n / 2 ^ 24 % 256, n / 2 ^ 16 % 256, n / 2 ^ 8 % 256, n % 256]

/-- Big-endian read of a byte list (`Buf::get_u32` on its 4 bytes). -/
def beToNat (l : List Nat) : Nat :=
  l.foldl (fun acc b => acc * 256 + b % 256) 0

/-- One bit step of reflected CRC-32, IEEE polynomial `0xEDB88320`. -/
def crcRound (c : Nat) : Nat :=
  if c % 2 = 1 then c / 2 ^^^ 0xEDB88320 else c / 2

/-- One byte step of CRC-32. -/
def crcByte (c b : Nat) : Nat :=
  crcRound (crcRound (crcRound (crcRound (crcRound (crcRound (crcRound
    (crcRound (c ^^^ b % 256))))))))

/-- `crc32fast::hash`: CRC-32 (IEEE), initial value and final xor
`0xFFFFFFFF`. -/
def crc32 (data : List Nat) : Nat :=
  (data.foldl crcByte 0xFFFFFFFF) ^^^ 0xFFFFFFFF

/-- Modelled from the spec: `crate::change::Change` (not under src/) is an
opaque change record whose byte layout is owned by an external collaborator;
embedded as its raw bytes, serialized as a length-prefixed blob. -/
structure Change where
  bytes : List Nat
  deriving DecidableEq

/-- `MessageV1` (broadcast.rs). -/
inductive MessageV1 where
  | Change (actor_id : ActorId) (version : Int) (changeset : List Change)
  deriving DecidableEq

/-- `Message` (broadcast.rs). -/
inductive Message where
  | V1 (v1 : MessageV1)
  deriving DecidableEq

def serializeChange (c : Change) : List Nat :=
  natToLE 4 c.bytes.length ++ c.bytes

def serializeChanges : List Change → List Nat
  | [] => []
  | c :: cs => serializeChange c ++ serializeChanges cs

/-- `i64` serialized on 8 little-endian bytes (two's complement). -/
def intToLE8 (v : Int) : List Nat := natToLE 8 (v % (2 : Int) ^ 64).toNat

/-- speedy `Writable` for `Message` (derive): `u32` little-endian variant
tags, scalars little-endian, sequences length-prefixed with a `u32` count. -/
def serializeMessage : Message → List Nat
  | .V1 (.Change actor_id version changeset) =>
    natToLE 4 0 ++ natToLE 4 0 ++ actor_id ++ intToLE8 version ++
      natToLE 4 changeset.length ++ serializeChanges changeset

/-- Split `n` bytes off the front of a buffer, or fail. -/
def readN (n : Nat) (b : List Nat) : Option (List Nat × List Nat) :=
  if b.length < n then none else some (b.take n, b.drop n)

def readU32 (b : List Nat) : Option (Nat × List Nat) :=
  (readN 4 b).map (fun p => (leToNat p.1, p.2))

/-- Reinterpret a 64-bit unsigned value as an `i64` (two's complement). -/
def decodeI64 (u : Nat) : Int :=
  if u < 2 ^ 63 then (u : Int) else (u : Int) - 2 ^ 64

def readI64 (b : List Nat) : Option (Int × List Nat) :=
  (readN 8 b).map (fun p => (decodeI64 (leToNat p.1), p.2))

def parseChanges : Nat → List Nat → Option (List Change × List Nat)
  | 0, b => some ([], b)
  | n + 1, b =>
    (readU32 b).bind fun p1 =>
    (readN p1.1 p1.2).bind fun p2 =>
    (parseChanges n p2.2).bind fun p3 =>
    some (⟨p2.1⟩ :: p3.1, p3.2)

/-- speedy `Readable` for `Message` (`Message::from_slice`). -/
def parseMessage (b : List Nat) : Option (Message × List Nat) :=
  (readU32 b).bind fun t1 =>
  if t1.1 ≠ 0 then none else
  (readU32 t1.2).bind fun t2 =>
  if t2.1 ≠ 0 then none else
  (readN 16 t2.2).bind fun pa =>
  (readI64 pa.2).bind fun pv =>
  (readU32 pv.2).bind fun pc =>
  (parseChanges pc.1 pc.2).bind fun pcs =>
  some (.V1 (.Change pa.1 pv.1 pcs.1), pcs.2)

/-- `MessageEncodeError` (broadcast.rs): `Encode` wraps a speedy error
(unreachable for in-memory writes of these types), `Io` an `io::Error` from
the codec. -/
inductive MessageEncodeError where
  | Encode
  | Io
  deriving DecidableEq

/-- `MessageDecodeError` (broadcast.rs): speedy `Decode` failure, CRC
`Corrupted (got, expected)`, or a codec `Io` error. -/
inductive MessageDecodeError where
  | Decode
  | Corrupted (got expected : Nat)
  | Io
  deriving DecidableEq

/-- Default `max_frame_length` of tokio-util's `LengthDelimitedCodec`
(the builder in `Message::encode`/`Message::decode` does not override it). -/
def maxFrameLen : Nat := 8 * 1024 * 1024

/-- `Message::encode`: serialize into `buf`, `split()` the whole buffer
contents, append the big-endian CRC-32 of those bytes, then have the
length-delimited codec write the 4-byte big-endian length and the block
back into the (now empty) buffer. The codec rejects blocks longer than
`maxFrameLen` with an io error. -/
def encodeMsg (m : Message) (buf : List Nat) :
    Except MessageEncodeError (List Nat) :=
  let payload := buf ++ serializeMessage m
  let block := payload ++ natToBE4 (crc32 payload)
  if maxFrameLen < block.length then .error .Io
  else .ok (natToBE4 block.length ++ block)

/-- Result of `Message::from_buf`: a message, a typed decode error, or the
panic caused by `buf.split_off(len - 4)` when `len < 4` (usize underflow /
out-of-bounds split). -/
inductive DecodeResult where
  | ok (m : Message)
  | err (e : MessageDecodeError)
  | panicked
  deriving DecidableEq

/-- `Message::from_buf` (broadcast.rs): split the trailing 4 bytes, read
them as a big-endian CRC, recompute the CRC over the remainder, compare,
then deserialize. -/
def fromBuf (buf : List Nat) : DecodeResult :=
  if buf.length < 4 then .panicked
  else
    let body := buf.take (buf.length - 4)
    let crc := beToNat (buf.drop (buf.length - 4))
    let newCrc := crc32 body
    if crc ≠ newCrc then .err (.Corrupted crc newCrc)
    else
      match parseMessage body with
      | some p => .ok p.1
      | none => .err .Decode

/-- `LengthDelimitedCodec::decode` with a `u32` big-endian length field and
the default cap: `none` when more bytes are needed, otherwise the
de-length-delimited frame and the remaining bytes. -/
def codecDecode (src : List Nat) :
    Except MessageDecodeError (Option (List Nat × List Nat)) :=
  if src.length < 4 then .ok none
  else
    let len := beToNat (src.take 4)
    if maxFrameLen < len then .error .Io
    else if src.length < 4 + len then .ok none
    else .ok (some ((src.drop 4).take len, (src.drop 4).drop len))

/-- `Message::encode` followed by `Message::decode` (frame extraction plus
`Message::from_buf`) on the produced bytes. -/
def roundTrip (m : Message) : Option Message :=
  match encodeMsg m [] with
  | .error _ => none
  | .ok bytes =>
    match codecDecode bytes with
    | .ok (some (frame, _)) =>
      match fromBuf frame with
      | .ok m2 => some m2
      | _ => none
    | _ => none

/-- Constructibility side conditions carried by the Rust types: a 16-byte
actor id, an `i64` version, `u32`-sized sequence lengths. -/
def wfMessage : Message → Bool
  | .V1 (.Change actor_id version changeset) =>
    decide (actor_id.length = 16) && decide (-(2 : Int) ^ 63 ≤ version) &&
      decide (version < 2 ^ 63) && decide (changeset.length < 2 ^ 32) &&
      changeset.all (fun c => decide (c.bytes.length < 2 ^ 32))

/-! ## Dispatch adapter (broadcast.rs) -/

/-- Modelled from the spec and the match arms in src: the membership
engine's (`foca`) notification kinds; the source handles `Active`, `Idle`,
`Defunct` explicitly and wildcards every other kind, represented here by the
member-carrying variants. -/
inductive FocaNotification (T : Type) where
  | MemberUp (m : T)
  | MemberDown (m : T)
  | Active
  | Idle
  | Defunct
  | Rejoin (m : T)
  deriving DecidableEq

/-- Modelled from the spec: an opaque timer event of the membership engine. -/
structure Timer (T : Type) where
  id : Nat
  deriving DecidableEq

/-- A bounded mpsc sender endpoint: `try_send` appends when there is
capacity, otherwise drops the value and bumps the error counter metric. -/
structure Chan (α : Type) where
  cap : Nat
  queue : List α
  dropped : Nat

def trySend {α : Type} (c : Chan α) (x : α) : Chan α :=
  if c.queue.length < c.cap then { c with queue := c.queue ++ [x] }
  else { c with dropped := c.dropped + 1 }

/-- `DispatchRuntime` (broadcast.rs). -/
structure DispatchRuntime (T : Type) where
  to_send : Chan (T × List Nat)
  to_schedule : Chan (Nat × Timer T)
  notifications : Chan (FocaNotification T)
  active : Bool

/-- `DispatchRuntime::notify`: update the cached `active` flag per the
notification kind, then forward the notification best-effort. -/
def notify {T : Type} (rt : DispatchRuntime T) (n : FocaNotification T) :
    DispatchRuntime T :=
  let rt1 :=
    match n with
    | .Active => { rt with active := true }
    | .Idle => { rt with active := false }
    | .Defunct => { rt with active := false }
    | _ => rt
  { rt1 with notifications := trySend rt1.notifications n }

/-- `DispatchRuntime::send_to`. -/
def sendTo {T : Type} (rt : DispatchRuntime T) (dest : T) (data : List Nat) :
    DispatchRuntime T :=
  { rt with to_send := trySend rt.to_send (dest, data) }

/-- `DispatchRuntime::submit_after`. -/
def submitAfter {T : Type} (rt : DispatchRuntime T) (event : Timer T)
    (after : Nat) : DispatchRuntime T :=
  { rt with to_schedule := trySend rt.to_schedule (after, event) }

/-- The spec's words for the `active` flag: set true on an Active
notification, false on Idle or Defunct, untouched for every other kind. -/
def specActiveAfter {T : Type} (n : FocaNotification T) (prev : Bool) : Bool :=
  match n with
  | .Active => true
  | .Idle => false
  | .Defunct => false
  | _ => prev

/-! ## Range-set lemmas -/

theorem rmem_cons_iff (x a b : Int) (l : List (Int × Int)) :
    rmem x ((a, b) :: l) = true ↔ (a ≤ x ∧ x ≤ b) ∨ rmem x l = true := by
  simp [rmem]

theorem rmem_iff_rinsert (x : Int) :
    ∀ (l : List (Int × Int)) (lo hi : Int),
      rmem x (rinsert lo hi l) = true ↔ (lo ≤ x ∧ x ≤ hi) ∨ rmem x l = true := by
  intro l
  induction l with
  | nil =>
    intro lo hi
    simp [rinsert, rmem]
  | cons p rest ih =>
    intro lo hi
    obtain ⟨a, b⟩ := p
    rw [rinsert]
    split_ifs with h1 h2
    · simp only [rmem_cons_iff, ih]
      tauto
    · simp only [rmem_cons_iff]
    · rw [ih]
      simp only [rmem_cons_iff]
      have hiff : (min a lo ≤ x ∧ x ≤ max b hi) ↔
          (lo ≤ x ∧ x ≤ hi) ∨ (a ≤ x ∧ x ≤ b) := by omega
      tauto

theorem rmem_rextend (x : Int) :
    ∀ (src dst : List (Int × Int)),
      rmem x (rextend dst src) = true ↔ rmem x dst = true ∨ rmem x src = true := by
  intro src
  induction src with
  | nil =>
    intro dst
    simp [rextend, rmem]
  | cons p src' ih =>
    intro dst
    obtain ⟨lo, hi⟩ := p
    show rmem x (rextend (rinsert lo hi dst) src') = true ↔ _
    rw [ih, rmem_iff_rinsert]
    simp only [rmem_cons_iff]
    tauto

theorem rwf_head_le (a b : Int) (l : List (Int × Int)) (h : rwf ((a, b) :: l) = true) :
    a ≤ b := by
  cases l with
  | nil => simpa [rwf] using h
  | cons q t =>
    obtain ⟨c, d⟩ := q
    simp only [rwf, Bool.and_eq_true, decide_eq_true_eq] at h
    exact h.1.1

theorem rwf_tail (a b : Int) (l : List (Int × Int)) (h : rwf ((a, b) :: l) = true) :
    rwf l = true := by
  cases l with
  | nil => rfl
  | cons q t =>
    obtain ⟨c, d⟩ := q
    simp only [rwf, Bool.and_eq_true, decide_eq_true_eq] at h
    simpa [rwf] using h.2

theorem rwf_head_gap (lo hi : Int) :
    ∀ (a b : Int) (l : List (Int × Int)), rwf ((a, b) :: l) = true →
      (lo, hi) ∈ l → b + 1 < lo := by
  intro a b l
  induction l generalizing a b with
  | nil => intro _ hm; cases hm
  | cons q t ih =>
    obtain ⟨c, d⟩ := q
    intro h hm
    simp only [rwf, Bool.and_eq_true, decide_eq_true_eq] at h
    rcases List.mem_cons.mp hm with h0 | h0
    · obtain ⟨rfl, rfl⟩ := Prod.mk.injEq .. ▸ h0
      omega
    · have hcd : c ≤ d := rwf_head_le c d t (by simpa [rwf] using h.2)
      have := ih c d (by simpa [rwf] using h.2) h0
      omega

theorem rinsert_of_mem (lo hi : Int) :
    ∀ (l : List (Int × Int)), rwf l = true → (lo, hi) ∈ l →
      rinsert lo hi l = l := by
  intro l
  induction l with
  | nil => intro _ hm; cases hm
  | cons p rest ih =>
    obtain ⟨a, b⟩ := p
    intro hwf hm
    rcases List.mem_cons.mp hm with h0 | h0
    · obtain ⟨rfl, rfl⟩ := Prod.mk.injEq .. ▸ h0
      have hle : lo ≤ hi := rwf_head_le lo hi rest hwf
      rw [rinsert]
      rw [if_neg (by omega), if_neg (by omega)]
      rw [min_self, max_self]
      cases rest with
      | nil => rfl
      | cons q t =>
        obtain ⟨c, d⟩ := q
        simp only [rwf, Bool.and_eq_true, decide_eq_true_eq] at hwf
        have hcd : c ≤ d := rwf_head_le c d t (by simpa [rwf] using hwf.2)
        rw [rinsert]
        rw [if_neg (by omega), if_pos (by omega)]
    · have hgap : b + 1 < lo := rwf_head_gap lo hi a b rest hwf h0
      rw [rinsert, if_pos hgap, ih (rwf_tail a b rest hwf) h0]

theorem rextend_of_mem :
    ∀ (src dst : List (Int × Int)), rwf dst = true → (∀ p ∈ src, p ∈ dst) →
      rextend dst src = dst := by
  intro src
  induction src with
  | nil => intro dst _ _; rfl
  | cons p src' ih =>
    intro dst hwf hmem
    obtain ⟨lo, hi⟩ := p
    show rextend (rinsert lo hi dst) src' = dst
    rw [rinsert_of_mem lo hi dst hwf (hmem _ (List.mem_cons_self _ _))]
    exact ih dst hwf (fun q hq => hmem q (List.mem_cons_of_mem _ hq))

theorem rextend_self (s : List (Int × Int)) (h : rwf s = true) :
    rextend s s = s :=
  rextend_of_mem s s h (fun _ hq => hq)

/-! ## Map lookup lemmas -/

theorem getKeyValue_cons (v a b : Int) (w : KnownDbVersion) (l : BookedM) :
    getKeyValue v (((a, b), w) :: l) =
      if a ≤ v ∧ v ≤ b then some ((a, b), w) else getKeyValue v l := by
  rw [getKeyValue]
  by_cases h : a ≤ v ∧ v ≤ b
  · rw [if_pos (by simpa using h), if_pos h]
  · rw [if_neg (by simpa using h), if_neg h]

theorem lookupV_cons (v a b : Int) (w : KnownDbVersion) (l : BookedM) :
    lookupV v (((a, b), w) :: l) =
      if a ≤ v ∧ v ≤ b then some w else lookupV v l := by
  rw [lookupV, getKeyValue_cons]
  split_ifs <;> rfl

theorem containsKey_cons (v a b : Int) (w : KnownDbVersion) (l : BookedM) :
    containsKey v (((a, b), w) :: l) =
      if a ≤ v ∧ v ≤ b then true else containsKey v l := by
  rw [containsKey, getKeyValue_cons]
  split_ifs <;> rfl

theorem containsKey_iff_exists (x : Int) :
    ∀ m : BookedM, containsKey x m = true ↔ ∃ p ∈ m, p.1.1 ≤ x ∧ x ≤ p.1.2 := by
  intro m
  induction m with
  | nil => simp [containsKey, getKeyValue]
  | cons e rest ih =>
    obtain ⟨⟨a, b⟩, w⟩ := e
    by_cases h : a ≤ x ∧ x ≤ b
    · rw [containsKey_cons, if_pos h]
      simp only [true_iff]
      exact ⟨((a, b), w), List.mem_cons_self _ _, h⟩
    · rw [containsKey_cons, if_neg h, ih]
      constructor
      · rintro ⟨p, hp, hx⟩
        exact ⟨p, List.mem_cons_of_mem _ hp, hx⟩
      · rintro ⟨p, hp, hx⟩
        rcases List.mem_cons.mp hp with rfl | hp'
        · exact absurd hx h
        · exact ⟨p, hp', hx⟩

theorem swfFrom_cons_iff (lb a b : Int) (w : KnownDbVersion) (l : BookedM) :
    swfFrom lb (((a, b), w) :: l) = true ↔
      lb < a ∧ a ≤ b ∧ swfFrom b l = true := by
  simp [swfFrom, and_assoc]

theorem swf_cons_iff (a b : Int) (w : KnownDbVersion) (l : BookedM) :
    swf (((a, b), w) :: l) = true ↔ a ≤ b ∧ swfFrom b l = true := by
  simp [swf]

theorem swfFrom_mono (l : BookedM) (lb lb' : Int) (h : lb' ≤ lb)
    (hs : swfFrom lb l = true) : swfFrom lb' l = true := by
  cases l with
  | nil => rfl
  | cons e rest =>
    obtain ⟨⟨a, b⟩, w⟩ := e
    rw [swfFrom_cons_iff] at hs ⊢
    exact ⟨by omega, hs.2⟩

theorem swf_of_swfFrom (l : BookedM) (lb : Int) (h : swfFrom lb l = true) :
    swf l = true := by
  cases l with
  | nil => rfl
  | cons e rest =>
    obtain ⟨⟨a, b⟩, w⟩ := e
    rw [swfFrom_cons_iff] at h
    rw [swf_cons_iff]
    exact ⟨h.2.1, h.2.2⟩

theorem containsKey_false_of_le (x : Int) :
    ∀ (l : BookedM) (lb : Int), swfFrom lb l = true → x ≤ lb →
      containsKey x l = false := by
  intro l
  induction l with
  | nil => intro lb _ _; rfl
  | cons e rest ih =>
    obtain ⟨⟨a, b⟩, w⟩ := e
    intro lb h hx
    rw [swfFrom_cons_iff] at h
    rw [containsKey_cons, if_neg (by omega)]
    exact ih b h.2.2 (by omega)

theorem lookupV_eraseKey (v x : Int) :
    ∀ l : BookedM, lookupV x (eraseKey v l) = if x = v then none else lookupV x l := by
  intro l
  induction l with
  | nil => simp [eraseKey, lookupV, getKeyValue]
  | cons e rest ih =>
    obtain ⟨⟨a, b⟩, w⟩ := e
    rw [eraseKey]
    by_cases hc : a ≤ v ∧ v ≤ b
    · rw [if_pos (by simpa using hc)]
      by_cases ha : a ≤ v - 1 <;> by_cases hb : v + 1 ≤ b
      · rw [if_pos (by simpa using ha), if_pos (by simpa using hb)]
        simp only [List.cons_append, List.nil_append, List.singleton_append,
          lookupV_cons, ih]
        split_ifs <;> first | rfl | omega
      · rw [if_pos (by simpa using ha), if_neg (by simpa using hb)]
        simp only [List.cons_append, List.nil_append, List.append_nil,
          List.singleton_append, lookupV_cons, ih]
        split_ifs <;> first | rfl | omega
      · rw [if_neg (by simpa using ha), if_pos (by simpa using hb)]
        simp only [List.cons_append, List.nil_append, List.singleton_append,
          lookupV_cons, ih]
        split_ifs <;> first | rfl | omega
      · rw [if_neg (by simpa using ha), if_neg (by simpa using hb)]
        simp only [List.nil_append, lookupV_cons, ih]
        split_ifs <;> first | rfl | omega
    · rw [if_neg (by simpa using hc)]
      simp only [List.singleton_append, lookupV_cons, ih]
      split_ifs <;> first | rfl | omega

theorem lookupV_sortedInsert (v x : Int) (wv : KnownDbVersion) :
    ∀ l : BookedM, containsKey v l = false →
      lookupV x (sortedInsert v wv l) =
        if x = v then some wv else lookupV x l := by
  intro l
  induction l with
  | nil =>
    intro _
    rw [sortedInsert]
    simp only [lookupV_cons]
    split_ifs <;> first | rfl | omega
  | cons e rest ih =>
    obtain ⟨⟨a, b⟩, w⟩ := e
    intro hnc
    rw [containsKey_cons] at hnc
    by_cases hc : a ≤ v ∧ v ≤ b
    · rw [if_pos hc] at hnc
      exact absurd hnc (by simp)
    · rw [if_neg hc] at hnc
      rw [sortedInsert]
      by_cases hv : v < a
      · rw [if_pos hv]
        simp only [lookupV_cons]
        split_ifs <;> first | rfl | omega
      · rw [if_neg hv]
        simp only [lookupV_cons, ih hnc]
        split_ifs <;> first | rfl | omega

/-! ## Invariant preservation -/

theorem containsKey_eq_isSome (x : Int) (m : BookedM) :
    containsKey x m = (lookupV x m).isSome := by
  cases h : getKeyValue x m <;> simp [containsKey, lookupV, h]

theorem containsKey_eraseKey_self (v : Int) (l : BookedM) :
    containsKey v (eraseKey v l) = false := by
  rw [containsKey_eq_isSome, lookupV_eraseKey]
  simp

theorem swfFrom_eraseKey (v : Int) :
    ∀ (l : BookedM) (lb : Int), swfFrom lb l = true →
      swfFrom lb (eraseKey v l) = true := by
  intro l
  induction l with
  | nil => intro lb _; rfl
  | cons e rest ih =>
    obtain ⟨⟨a, b⟩, w⟩ := e
    intro lb h
    rw [swfFrom_cons_iff] at h
    obtain ⟨hlb, hab, hrest⟩ := h
    rw [eraseKey]
    by_cases hc : a ≤ v ∧ v ≤ b
    · rw [if_pos (by simpa using hc)]
      by_cases ha : a ≤ v - 1 <;> by_cases hb : v + 1 ≤ b
      · rw [if_pos (by simpa using ha), if_pos (by simpa using hb)]
        simp only [List.cons_append, List.nil_append, List.singleton_append]
        rw [swfFrom_cons_iff]
        refine ⟨hlb, ha, ?_⟩
        rw [swfFrom_cons_iff]
        exact ⟨by omega, hb, ih b hrest⟩
      · rw [if_pos (by simpa using ha), if_neg (by simpa using hb)]
        simp only [List.cons_append, List.nil_append, List.append_nil,
          List.singleton_append]
        rw [swfFrom_cons_iff]
        exact ⟨hlb, ha, swfFrom_mono _ _ _ (by omega) (ih b hrest)⟩
      · rw [if_neg (by simpa using ha), if_pos (by simpa using hb)]
        simp only [List.cons_append, List.nil_append, List.singleton_append]
        rw [swfFrom_cons_iff]
        exact ⟨by omega, hb, ih b hrest⟩
      · rw [if_neg (by simpa using ha), if_neg (by simpa using hb)]
        simp only [List.nil_append]
        exact swfFrom_mono _ _ _ (by omega) (ih b hrest)
    · rw [if_neg (by simpa using hc)]
      simp only [List.singleton_append]
      rw [swfFrom_cons_iff]
      exact ⟨hlb, hab, ih b hrest⟩

theorem swfFrom_sortedInsert (v : Int) (wv : KnownDbVersion) :
    ∀ (l : BookedM) (lb : Int), swfFrom lb l = true → lb < v →
      containsKey v l = false → swfFrom lb (sortedInsert v wv l) = true := by
  intro l
  induction l with
  | nil =>
    intro lb _ hlb _
    rw [sortedInsert, swfFrom_cons_iff]
    exact ⟨hlb, le_refl v, rfl⟩
  | cons e rest ih =>
    obtain ⟨⟨a, b⟩, w⟩ := e
    intro lb h hlb hnc
    rw [swfFrom_cons_iff] at h
    obtain ⟨hlba, hab, hrest⟩ := h
    rw [containsKey_cons] at hnc
    by_cases hc : a ≤ v ∧ v ≤ b
    · rw [if_pos hc] at hnc
      exact absurd hnc (by simp)
    · rw [if_neg hc] at hnc
      rw [sortedInsert]
      by_cases hv : v < a
      · rw [if_pos hv, swfFrom_cons_iff]
        refine ⟨hlb, le_refl v, ?_⟩
        rw [swfFrom_cons_iff]
        exact ⟨hv, hab, hrest⟩
      · rw [if_neg hv, swfFrom_cons_iff]
        exact ⟨hlba, hab, ih b hrest (by omega) hnc⟩

theorem swf_to_swfFrom (a b : Int) (w : KnownDbVersion) (rest : BookedM)
    (h : swf (((a, b), w) :: rest) = true) :
    swfFrom (a - 1) (((a, b), w) :: rest) = true := by
  rw [swf_cons_iff] at h
  rw [swfFrom_cons_iff]
  exact ⟨by omega, h.1, h.2⟩

theorem swf_eraseKey (v : Int) (m : BookedM) (h : swf m = true) :
    swf (eraseKey v m) = true := by
  cases m with
  | nil => rfl
  | cons e rest =>
    obtain ⟨⟨a, b⟩, w⟩ := e
    exact swf_of_swfFrom _ _ (swfFrom_eraseKey v _ _ (swf_to_swfFrom a b w rest h))

theorem swf_sortedInsert (v : Int) (wv : KnownDbVersion) (m : BookedM)
    (h : swf m = true) (hnc : containsKey v m = false) :
    swf (sortedInsert v wv m) = true := by
  cases m with
  | nil => simp [sortedInsert, swf, swfFrom]
  | cons e rest =>
    obtain ⟨⟨a, b⟩, w⟩ := e
    have h0 : swfFrom (min (a - 1) (v - 1)) (((a, b), w) :: rest) = true :=
      swfFrom_mono _ _ _ (by omega) (swf_to_swfFrom a b w rest h)
    exact swf_of_swfFrom _ _
      (swfFrom_sortedInsert v wv _ _ h0 (by omega) hnc)

/-! ## Maximum lemmas -/

theorem listMax_cons (x : Int) (r : List Int) :
    listMax (x :: r) =
      some (match listMax r with | none => x | some y => max x y) := by
  cases h : listMax r <;> rw [listMax, h]

theorem listMax_eq_none (L : List Int) : listMax L = none ↔ L = [] := by
  cases L with
  | nil => simp [listMax]
  | cons x r => rw [listMax_cons]; simp

theorem listMax_ge :
    ∀ (L : List Int) (y : Int), listMax L = some y → ∀ z ∈ L, z ≤ y := by
  intro L
  induction L with
  | nil => intro y _ z hz; cases hz
  | cons x r ih =>
    intro y h z hz
    rw [listMax_cons] at h
    injection h with h
    cases hr : listMax r with
    | none =>
      have : r = [] := (listMax_eq_none r).mp hr
      subst this
      rw [hr] at h
      rcases List.mem_cons.mp hz with rfl | hz'
      · simp at h; omega
      · cases hz'
    | some m =>
      rw [hr] at h
      have h' : max x m = y := h
      rcases List.mem_cons.mp hz with rfl | hz'
      · omega
      · have := ih m hr z hz'
        omega

theorem listMax_mem : ∀ (L : List Int) (y : Int), listMax L = some y → y ∈ L := by
  intro L
  induction L with
  | nil => intro y h; cases h
  | cons x r ih =>
    intro y h
    rw [listMax_cons] at h
    injection h with h
    cases hr : listMax r with
    | none =>
      rw [hr] at h
      simp at h
      subst h
      exact List.mem_cons_self _ _
    | some m =>
      rw [hr] at h
      simp at h
      by_cases hxm : m ≤ x
      · rw [max_eq_left hxm] at h
        subst h
        exact List.mem_cons_self _ _
      · rw [max_eq_right (by omega)] at h
        subst h
        exact List.mem_cons_of_mem _ (ih m hr)

theorem coalesceCons_shape (e : (Int × Int) × KnownDbVersion) :
    ∀ l : BookedM, ∃ d tail, coalesceCons e l = ((e.1.1, d), e.2) :: tail := by
  intro l
  cases l with
  | nil => exact ⟨e.1.2, [], rfl⟩
  | cons f r =>
    rw [coalesceCons]
    by_cases h : e.1.2 + 1 = f.1.1 ∧ e.2 = f.2
    · rw [if_pos (by simpa using h)]
      exact ⟨f.1.2, r, rfl⟩
    · rw [if_neg (by simpa using h)]
      exact ⟨e.1.2, f :: r, rfl⟩

theorem lookupV_cons_congr (y : Int) (e : (Int × Int) × KnownDbVersion)
    (l1 l2 : BookedM) (h : lookupV y l1 = lookupV y l2) :
    lookupV y (e :: l1) = lookupV y (e :: l2) := by
  obtain ⟨⟨a, b⟩, w⟩ := e
  rw [lookupV_cons, lookupV_cons, h]

theorem listMax_cons_congr (x : Int) (L1 L2 : List Int)
    (h : listMax L1 = listMax L2) :
    listMax (x :: L1) = listMax (x :: L2) := by
  rw [listMax_cons, listMax_cons, h]

theorem coalesce_spec :
    ∀ l : BookedM, swf l = true →
      swf (coalesce l) = true ∧ (∀ y, lookupV y (coalesce l) = lookupV y l) ∧
        lastVer (coalesce l) = lastVer l := by
  intro l
  induction l with
  | nil => intro _; exact ⟨rfl, fun _ => rfl, rfl⟩
  | cons e rest ih =>
    obtain ⟨⟨a, b⟩, w⟩ := e
    intro h
    rw [swf_cons_iff] at h
    obtain ⟨hab, hrest⟩ := h
    obtain ⟨ihs, ihl, ihm⟩ := ih (swf_of_swfFrom rest b hrest)
    cases rest with
    | nil =>
      refine ⟨?_, fun _ => rfl, rfl⟩
      show swf [((a, b), w)] = true
      rw [swf_cons_iff]
      exact ⟨hab, rfl⟩
    | cons f0 r0 =>
      obtain ⟨⟨c0, d0⟩, w0⟩ := f0
      rw [swfFrom_cons_iff] at hrest
      obtain ⟨hbc, hcd, hr0⟩ := hrest
      obtain ⟨d, tail, hshape⟩ := coalesceCons_shape ((c0, d0), w0) (coalesce r0)
      have hc : coalesce (((c0, d0), w0) :: r0) = ((c0, d), w0) :: tail := by
        rw [coalesce]; exact hshape
      rw [hc] at ihs ihl ihm
      have hgoal : coalesce (((a, b), w) :: ((c0, d0), w0) :: r0) =
          coalesceCons ((a, b), w) (((c0, d), w0) :: tail) := by
        rw [coalesce, hc]
      rw [swf_cons_iff] at ihs
      obtain ⟨hc0d, htail⟩ := ihs
      by_cases hm : b + 1 = c0 ∧ w = w0
      · obtain ⟨hb1, hw⟩ := hm
        subst hw
        have hmerge : coalesceCons ((a, b), w) (((c0, d), w) :: tail) =
            ((a, d), w) :: tail := by
          rw [coalesceCons, if_pos (by simp [hb1])]
        rw [hgoal, hmerge]
        refine ⟨?_, ?_, ?_⟩
        · rw [swf_cons_iff]
          exact ⟨by omega, htail⟩
        · intro y
          have hy := ihl y
          rw [lookupV_cons] at hy
          rw [lookupV_cons, lookupV_cons, ← hy]
          split_ifs <;> first | rfl | omega
        · rw [lastVer, lastVer] at ihm ⊢
          simp only [List.map_cons] at ihm ⊢
          obtain ⟨K, hK⟩ : ∃ K, listMax (d0 :: r0.map (fun e => e.1.2)) = some K := by
            rw [listMax_cons]; exact ⟨_, rfl⟩
          have hbK : b ≤ K := by
            have := listMax_ge _ _ hK d0 (List.mem_cons_self _ _)
            omega
          rw [ihm, hK, listMax_cons, hK]
          show (some K : Option Int) = some (max b K)
          rw [max_eq_right hbK]
      · have hnm : coalesceCons ((a, b), w) (((c0, d), w0) :: tail) =
            ((a, b), w) :: ((c0, d), w0) :: tail := by
          rw [coalesceCons, if_neg (by simpa using hm)]
        rw [hgoal, hnm]
        refine ⟨?_, ?_, ?_⟩
        · rw [swf_cons_iff]
          refine ⟨hab, ?_⟩
          rw [swfFrom_cons_iff]
          exact ⟨hbc, hc0d, htail⟩
        · intro y
          exact lookupV_cons_congr y ((a, b), w) _ _ (ihl y)
        · rw [lastVer, lastVer] at ihm ⊢
          simp only [List.map_cons] at ihm ⊢
          exact listMax_cons_congr b _ _ ihm

theorem swf_stage (v : Int) (w : KnownDbVersion) (m : BookedM)
    (hm : swf m = true) :
    swf (sortedInsert v w (eraseKey v m)) = true :=
  swf_sortedInsert v w _ (swf_eraseKey v m hm) (containsKey_eraseKey_self v m)

theorem lookupV_mapInsert (v x : Int) (w : KnownDbVersion) (m : BookedM)
    (hm : swf m = true) :
    lookupV x (mapInsert v w m) = if x = v then some w else lookupV x m := by
  rw [mapInsert, (coalesce_spec _ (swf_stage v w m hm)).2.1 x,
    lookupV_sortedInsert v x w _ (containsKey_eraseKey_self v m),
    lookupV_eraseKey]
  split_ifs <;> rfl

theorem swf_mapInsert (v : Int) (w : KnownDbVersion) (m : BookedM)
    (hm : swf m = true) : swf (mapInsert v w m) = true :=
  (coalesce_spec _ (swf_stage v w m hm)).1

theorem containsKey_mapInsert (v x : Int) (w : KnownDbVersion) (m : BookedM)
    (hm : swf m = true) :
    containsKey x (mapInsert v w m) = (decide (x = v) || containsKey x m) := by
  rw [containsKey_eq_isSome, lookupV_mapInsert v x w m hm]
  by_cases h : x = v
  · simp [h]
  · simp [h, containsKey_eq_isSome]

theorem lastVer_spec :
    ∀ m : BookedM, swf m = true → ∀ E : Int, lastVer m = some E →
      containsKey E m = true ∧ ∀ x, containsKey x m = true → x ≤ E := by
  intro m
  induction m with
  | nil => intro _ E hE; cases hE
  | cons e rest ih =>
    obtain ⟨⟨a, b⟩, w⟩ := e
    intro hm E hE
    rw [swf_cons_iff] at hm
    obtain ⟨hab, hrest⟩ := hm
    rw [lastVer] at hE
    simp only [List.map_cons] at hE
    rw [listMax_cons] at hE
    injection hE with hE
    cases hr : listMax (rest.map (fun e => e.1.2)) with
    | none =>
      have : rest.map (fun e => e.1.2) = [] := (listMax_eq_none _).mp hr
      have hre : rest = [] := List.map_eq_nil_iff.mp this
      subst hre
      rw [hr] at hE
      have hEb : E = b := by simpa using hE.symm
      constructor
      · rw [containsKey_cons, if_pos (by omega)]
      · intro x hx
        rw [containsKey_cons] at hx
        by_cases hc : a ≤ x ∧ x ≤ b
        · omega
        · rw [if_neg hc] at hx
          cases hx
    | some M =>
      rw [hr] at hE
      have hE' : max b M = E := hE
      obtain ⟨ihc, ihb⟩ := ih (swf_of_swfFrom rest b hrest) M hr
      constructor
      · by_cases hbM : M ≤ b
        · rw [containsKey_cons, if_pos (by omega)]
        · rw [containsKey_cons]
          have hEM : E = M := by omega
          rw [hEM]
          split_ifs
          · rfl
          · exact ihc
      · intro x hx
        rw [containsKey_cons] at hx
        by_cases hc : a ≤ x ∧ x ≤ b
        · omega
        · rw [if_neg hc] at hx
          have := ihb x hx
          omega

/-! ## Canonical form and the idempotent re-insert -/

theorem mwf_cons_iff (a b : Int) (w : KnownDbVersion) (l : BookedM) :
    mwf (((a, b), w) :: l) = true ↔ a ≤ b ∧ mwfFrom b w l = true := by
  simp [mwf]

theorem mwfFrom_cons_iff (lb : Int) (lw : KnownDbVersion) (a b : Int)
    (w : KnownDbVersion) (l : BookedM) :
    mwfFrom lb lw (((a, b), w) :: l) = true ↔
      lb < a ∧ a ≤ b ∧ ¬(lb + 1 = a ∧ lw = w) ∧ mwfFrom b w l = true := by
  rw [mwfFrom]
  simp only [Bool.and_eq_true, Bool.not_eq_true', Bool.and_eq_false_iff,
    decide_eq_true_eq, decide_eq_false_iff_not]
  tauto

theorem mwfFrom_to_swfFrom :
    ∀ (l : BookedM) (lb : Int) (lw : KnownDbVersion),
      mwfFrom lb lw l = true → swfFrom lb l = true := by
  intro l
  induction l with
  | nil => intro lb lw _; rfl
  | cons e rest ih =>
    obtain ⟨⟨a, b⟩, w⟩ := e
    intro lb lw h
    rw [mwfFrom_cons_iff] at h
    rw [swfFrom_cons_iff]
    exact ⟨h.1, h.2.1, ih b w h.2.2.2⟩

theorem mwfFrom_to_mwf (l : BookedM) (lb : Int) (lw : KnownDbVersion)
    (h : mwfFrom lb lw l = true) : mwf l = true := by
  cases l with
  | nil => rfl
  | cons e rest =>
    obtain ⟨⟨a, b⟩, w⟩ := e
    rw [mwfFrom_cons_iff] at h
    rw [mwf_cons_iff]
    exact ⟨h.2.1, h.2.2.2⟩

theorem mwf_to_swf (m : BookedM) (h : mwf m = true) : swf m = true := by
  cases m with
  | nil => rfl
  | cons e rest =>
    obtain ⟨⟨a, b⟩, w⟩ := e
    rw [mwf_cons_iff] at h
    rw [swf_cons_iff]
    exact ⟨h.1, mwfFrom_to_swfFrom rest b w h.2⟩

theorem eraseKey_of_notContains (v : Int) :
    ∀ l : BookedM, containsKey v l = false → eraseKey v l = l := by
  intro l
  induction l with
  | nil => intro _; rfl
  | cons e rest ih =>
    obtain ⟨⟨a, b⟩, w⟩ := e
    intro h
    rw [containsKey_cons] at h
    by_cases hc : a ≤ v ∧ v ≤ b
    · rw [if_pos hc] at h
      cases h
    · rw [if_neg hc] at h
      rw [eraseKey, if_neg (by simpa using hc), ih h, List.singleton_append]

theorem coalesce_of_mwf : ∀ m : BookedM, mwf m = true → coalesce m = m := by
  intro m
  induction m with
  | nil => intro _; rfl
  | cons e rest ih =>
    obtain ⟨⟨a, b⟩, w⟩ := e
    intro h
    rw [mwf_cons_iff] at h
    obtain ⟨hab, hmf⟩ := h
    rw [coalesce, ih (mwfFrom_to_mwf rest b w hmf)]
    cases rest with
    | nil => rfl
    | cons f r =>
      obtain ⟨⟨c, d⟩, x⟩ := f
      rw [mwfFrom_cons_iff] at hmf
      rw [coalesceCons, if_neg (by simpa using hmf.2.2.1)]

theorem sortedInsert_eraseKey_self (v : Int) (wv : KnownDbVersion) :
    ∀ m : BookedM, mwf m = true → getKeyValue v m = some ((v, v), wv) →
      sortedInsert v wv (eraseKey v m) = m := by
  intro m
  induction m with
  | nil => intro _ hg; exact absurd hg (by simp [getKeyValue])
  | cons e rest ih =>
    obtain ⟨⟨a, b⟩, w⟩ := e
    intro hm hg
    rw [mwf_cons_iff] at hm
    obtain ⟨hab, hmf⟩ := hm
    rw [getKeyValue_cons] at hg
    by_cases hc : a ≤ v ∧ v ≤ b
    · rw [if_pos hc] at hg
      simp only [Option.some.injEq, Prod.mk.injEq] at hg
      obtain ⟨⟨ha, hb⟩, hw⟩ := hg
      rw [hb, hw] at hmf
      rw [ha, hb, hw]
      have hsw : swfFrom v rest = true := mwfFrom_to_swfFrom rest v wv hmf
      have hnc : containsKey v rest = false :=
        containsKey_false_of_le v rest v hsw (le_refl v)
      rw [eraseKey, if_pos (by simp),
        if_neg (by simp only [decide_eq_true_eq]; omega),
        if_neg (by simp only [decide_eq_true_eq]; omega),
        eraseKey_of_notContains v rest hnc]
      simp only [List.nil_append]
      cases rest with
      | nil => rw [sortedInsert]
      | cons f r =>
        obtain ⟨⟨c, d⟩, x⟩ := f
        rw [swfFrom_cons_iff] at hsw
        rw [sortedInsert, if_pos hsw.1]
    · rw [if_neg hc] at hg
      have hcont : containsKey v rest = true := by
        rw [containsKey, hg]; rfl
      have hsw : swfFrom b rest = true := mwfFrom_to_swfFrom rest b w hmf
      have hbv : b < v := by
        by_contra hbv
        push_neg at hbv
        have := containsKey_false_of_le v rest b hsw hbv
        rw [this] at hcont
        cases hcont
      rw [eraseKey, if_neg (by simpa using hc), List.singleton_append,
        sortedInsert, if_neg (by omega), ih (mwfFrom_to_mwf rest b w hmf) hg]

theorem mapInsert_self (v : Int) (wv : KnownDbVersion) (m : BookedM)
    (hm : mwf m = true) (hg : getKeyValue v m = some ((v, v), wv)) :
    mapInsert v wv m = m := by
  rw [mapInsert, sortedInsert_eraseKey_self v wv m hm hg, coalesce_of_mwf m hm]

/-! ## Codec lemmas -/

theorem natToLE_length : ∀ (k n : Nat), (natToLE k n).length = k := by
  intro k
  induction k with
  | zero => intro n; rfl
  | succ k ih => intro n; rw [natToLE]; simp [ih]

theorem takeAppend (x r : List Nat) : (x ++ r).take x.length = x := by
  induction x with
  | nil => rfl
  | cons a t ih => simp [ih]

theorem dropAppend (x r : List Nat) : (x ++ r).drop x.length = r := by
  induction x with
  | nil => rfl
  | cons a t ih => simp [ih]

theorem readN_append (x r : List Nat) : readN x.length (x ++ r) = some (x, r) := by
  rw [readN, if_neg (by rw [List.length_append]; omega), takeAppend, dropAppend]

theorem readN_append' (n : Nat) (x r : List Nat) (h : x.length = n) :
    readN n (x ++ r) = some (x, r) := by
  subst h
  exact readN_append x r

theorem leToNat_natToLE : ∀ (k n : Nat), n < 2 ^ (8 * k) →
    leToNat (natToLE k n) = n := by
  intro k
  induction k with
  | zero =>
    intro n h
    have h1 : (2 : Nat) ^ (8 * 0) = 1 := by norm_num
    rw [natToLE, leToNat]
    omega
  | succ k ih =>
    intro n h
    have hp : (2 : Nat) ^ (8 * (k + 1)) = 256 * 2 ^ (8 * k) := by
      rw [show 8 * (k + 1) = 8 * k + 8 by ring, pow_add]
      ring
    rw [hp] at h
    rw [natToLE, leToNat, ih (n / 256) (by omega)]
    omega

theorem readU32_round (n : Nat) (rest : List Nat) (h : n < 2 ^ 32) :
    readU32 (natToLE 4 n ++ rest) = some (n, rest) := by
  rw [readU32, readN_append' 4 _ _ (natToLE_length 4 n)]
  simp only [Option.map_some']
  rw [leToNat_natToLE 4 n (by norm_num at h ⊢; omega)]

theorem readI64_round (v : Int) (rest : List Nat)
    (hlo : -(2 : Int) ^ 63 ≤ v) (hhi : v < 2 ^ 63) :
    readI64 (intToLE8 v ++ rest) = some (v, rest) := by
  rw [intToLE8]
  have h0 : 0 ≤ v % (2 : Int) ^ 64 := Int.emod_nonneg v (by norm_num)
  have h1 : v % (2 : Int) ^ 64 < 2 ^ 64 := Int.emod_lt_of_pos v (by norm_num)
  have hcast : ((v % (2 : Int) ^ 64).toNat : Int) = v % 2 ^ 64 :=
    Int.toNat_of_nonneg h0
  have hu : (v % (2 : Int) ^ 64).toNat < 2 ^ 64 := by omega
  rw [readI64, readN_append' 8 _ _ (natToLE_length 8 _)]
  simp only [Option.map_some']
  rw [leToNat_natToLE 8 _ (by norm_num at hu ⊢; omega)]
  have hdec : decodeI64 (v % (2 : Int) ^ 64).toNat = v := by
    rw [decodeI64]
    split_ifs with hsplit <;> omega
  rw [hdec]

theorem parseChanges_round :
    ∀ (cs : List Change) (r : List Nat),
      (∀ c ∈ cs, c.bytes.length < 2 ^ 32) →
      parseChanges cs.length (serializeChanges cs ++ r) = some (cs, r) := by
  intro cs
  induction cs with
  | nil => intro r _; simp [parseChanges, serializeChanges]
  | cons c cs ih =>
    intro r hwf
    rw [List.length_cons, parseChanges, serializeChanges, serializeChange,
      List.append_assoc, List.append_assoc,
      readU32_round _ _ (hwf c (List.mem_cons_self _ _))]
    simp only [Option.bind]
    rw [readN_append]
    simp only [Option.bind]
    rw [ih r (fun c' hc' => hwf c' (List.mem_cons_of_mem _ hc'))]

theorem parseMessage_round (m : Message) (hwf : wfMessage m = true)
    (r : List Nat) : parseMessage (serializeMessage m ++ r) = some (m, r) := by
  obtain ⟨v1⟩ := m
  obtain ⟨aid, ver, cs⟩ := v1
  rw [wfMessage] at hwf
  simp only [Bool.and_eq_true, decide_eq_true_eq, List.all_eq_true] at hwf
  obtain ⟨⟨⟨⟨h16, hlo⟩, hhi⟩, hcnt⟩, hall⟩ := hwf
  rw [serializeMessage, parseMessage, List.append_assoc, List.append_assoc,
    List.append_assoc, List.append_assoc, List.append_assoc,
    readU32_round 0 _ (by norm_num)]
  simp only [Option.bind, ne_eq, not_true_eq_false, if_neg, ite_false,
    not_false_eq_true, if_false]
  rw [readU32_round 0 _ (by norm_num)]
  simp only [Option.bind, ne_eq, not_true_eq_false, ite_false]
  rw [show (16 : Nat) = aid.length from h16.symm, readN_append]
  simp only [Option.bind]
  rw [readI64_round ver _ hlo hhi]
  simp only [Option.bind]
  rw [readU32_round cs.length _ hcnt]
  simp only [Option.bind]
  rw [parseChanges_round cs r (fun c hc => by
    have := hall c hc
    simpa using this)]

theorem natToBE4_length (n : Nat) : (natToBE4 n).length = 4 := rfl

theorem beToNat_natToBE4 (n : Nat) (h : n < 2 ^ 32) :
    beToNat (natToBE4 n) = n := by
  simp only [natToBE4, beToNat, List.foldl]
  omega

theorem crcRound_lt (c : Nat) (h : c < 2 ^ 32) : crcRound c < 2 ^ 32 := by
  rw [crcRound]
  split_ifs
  · exact Nat.xor_lt_two_pow (by omega) (by norm_num)
  · omega

theorem crcByte_lt (c b : Nat) (h : c < 2 ^ 32) : crcByte c b < 2 ^ 32 := by
  rw [crcByte]
  have h0 : c ^^^ b % 256 < 2 ^ 32 :=
    Nat.xor_lt_two_pow h (by omega)
  exact crcRound_lt _ (crcRound_lt _ (crcRound_lt _ (crcRound_lt _ (crcRound_lt _
    (crcRound_lt _ (crcRound_lt _ (crcRound_lt _ h0)))))))

theorem foldl_crcByte_lt :
    ∀ (l : List Nat) (c : Nat), c < 2 ^ 32 → l.foldl crcByte c < 2 ^ 32 := by
  intro l
  induction l with
  | nil => intro c h; exact h
  | cons b t ih => intro c h; exact ih (crcByte c b) (crcByte_lt c b h)

theorem crc32_lt (data : List Nat) : crc32 data < 2 ^ 32 := by
  rw [crc32]
  exact Nat.xor_lt_two_pow (foldl_crcByte_lt data _ (by norm_num)) (by norm_num)

theorem take4_append (x r : List Nat) (h : x.length = 4) :
    (x ++ r).take 4 = x := by
  rw [← h, takeAppend]

theorem drop4_append (x r : List Nat) (h : x.length = 4) :
    (x ++ r).drop 4 = r := by
  rw [← h, dropAppend]

theorem encodeMsg_ok (m : Message) (buf : List Nat)
    (h : (buf ++ serializeMessage m).length + 4 ≤ maxFrameLen) :
    encodeMsg m buf = .ok
      (natToBE4 ((buf ++ serializeMessage m) ++
          natToBE4 (crc32 (buf ++ serializeMessage m))).length ++
        ((buf ++ serializeMessage m) ++
          natToBE4 (crc32 (buf ++ serializeMessage m)))) := by
  simp only [encodeMsg]
  rw [if_neg (by rw [List.length_append, natToBE4_length]; omega)]

theorem codecDecode_frame (block : List Nat) (h : block.length ≤ maxFrameLen) :
    codecDecode (natToBE4 block.length ++ block) = .ok (some (block, [])) := by
  have hlen : (natToBE4 block.length ++ block).length = 4 + block.length := by
    rw [List.length_append, natToBE4_length]
  have hlt : block.length < 2 ^ 32 := by
    rw [maxFrameLen] at h
    omega
  simp only [codecDecode]
  rw [hlen, if_neg (by omega),
    take4_append _ _ (natToBE4_length _), beToNat_natToBE4 _ hlt,
    if_neg (by omega), if_neg (by omega),
    drop4_append _ _ (natToBE4_length _), List.take_length, List.drop_length]

theorem fromBuf_frame_ok (payload : List Nat) (m : Message) (rest : List Nat)
    (hp : parseMessage payload = some (m, rest)) :
    fromBuf (payload ++ natToBE4 (crc32 payload)) = .ok m := by
  have hlen : (payload ++ natToBE4 (crc32 payload)).length = payload.length + 4 := by
    rw [List.length_append, natToBE4_length]
  simp only [fromBuf]
  rw [hlen, if_neg (by omega), Nat.add_sub_cancel, takeAppend, dropAppend,
    beToNat_natToBE4 _ (crc32_lt payload), if_neg (by simp), hp]

theorem roundTrip_ok (m : Message) (hwf : wfMessage m = true)
    (hsz : (serializeMessage m).length + 4 ≤ maxFrameLen) :
    roundTrip m = some m := by
  have hb : (serializeMessage m ++ natToBE4 (crc32 (serializeMessage m))).length ≤
      maxFrameLen := by
    rw [List.length_append, natToBE4_length]
    omega
  have h1 := encodeMsg_ok m [] (by simpa using hsz)
  simp only [List.nil_append] at h1
  have h2 := codecDecode_frame (serializeMessage m ++
    natToBE4 (crc32 (serializeMessage m))) hb
  have h4 := parseMessage_round m hwf []
  rw [List.append_nil] at h4
  have h3 := fromBuf_frame_ok (serializeMessage m) m [] h4
  rw [List.length_append, natToBE4_length] at h2
  rw [List.length_append, natToBE4_length] at h1
  simp only [roundTrip, h1, h2, h3]

/-! ## Claim support lemmas -/

theorem writer_mismatch_panics (m : BookedM) (v : Int) (S1 S2 : List (Int × Int))
    (L1 L2 : Int) (T1 T2 : Timestamp)
    (hentry : lookupV v m = some (.Part S1 L1 T1))
    (hdiff : L1 ≠ L2 ∨ T1 ≠ T2) :
    isPanicked (writerInsert v (.Part S2 L2 T2) m) = true := by
  rw [lookupV] at hentry
  cases hg : getKeyValue v m with
  | none => rw [hg] at hentry; cases hentry
  | some e =>
    rw [hg] at hentry
    obtain ⟨⟨a, b⟩, w⟩ := e
    simp only [Option.map_some'] at hentry
    injection hentry with hentry
    subst hentry
    simp only [writerInsert, hg]
    split_ifs <;> first | rfl | tauto

theorem lookupV_bookedInsert_self (v : Int) (kv : KnownDbVersion) (m : BookedM)
    (hm : swf m = true) : lookupV v (bookedInsert v kv m) = some kv := by
  rw [bookedInsert, lookupV_mapInsert v v kv m hm, if_pos rfl]

theorem writer_merge_ok (m : BookedM) (v : Int) (S1 S2 : List (Int × Int))
    (L : Int) (T : Timestamp)
    (hkey : getKeyValue v m = some ((v, v), .Part S1 L T)) :
    writerInsert v (.Part S2 L T) m =
      .ok (mapInsert v (.Part (rextend S2 S1) L T) m) := by
  simp only [writerInsert, hkey]
  rw [if_neg (by simp), if_neg (by simp), if_neg (by simp)]

theorem rset_rextend (S1 S2 : List (Int × Int)) :
    rset (rextend S2 S1) = rset S1 ∪ rset S2 := by
  ext x
  simp only [Set.mem_union]
  show rmem x (rextend S2 S1) = true ↔ rmem x S1 = true ∨ rmem x S2 = true
  rw [rmem_rextend x S1 S2]
  tauto

theorem insertAll_cons (p : Int × KnownDbVersion) (l : List (Int × KnownDbVersion))
    (m : BookedM) : insertAll (p :: l) m = insertAll l (bookedInsert p.1 p.2 m) := rfl

theorem insertAll_swf :
    ∀ (l : List (Int × KnownDbVersion)) (m : BookedM), swf m = true →
      swf (insertAll l m) = true := by
  intro l
  induction l with
  | nil => intro m hm; exact hm
  | cons p l ih =>
    intro m hm
    rw [insertAll_cons]
    exact ih _ (swf_mapInsert p.1 p.2 m hm)

theorem insertAll_contains_iff :
    ∀ (l : List (Int × KnownDbVersion)) (m : BookedM), swf m = true → ∀ x,
      (containsKey x (insertAll l m) = true ↔
        containsKey x m = true ∨ x ∈ l.map Prod.fst) := by
  intro l
  induction l with
  | nil => intro m hm x; simp [insertAll]
  | cons p l ih =>
    intro m hm x
    rw [insertAll_cons, bookedInsert, ih _ (swf_mapInsert p.1 p.2 m hm) x,
      containsKey_mapInsert p.1 x p.2 m hm]
    simp only [Bool.or_eq_true, decide_eq_true_eq, List.map_cons, List.mem_cons]
    tauto

theorem lookupActor_append_self (a : ActorId) :
    ∀ (l : List (ActorId × Nat)) (i : Nat), lookupActor a l = none →
      lookupActor a (l ++ [(a, i)]) = some i := by
  intro l
  induction l with
  | nil => intro i _; rw [List.nil_append, lookupActor, if_pos rfl]
  | cons e rest ih =>
    obtain ⟨x, j⟩ := e
    intro i h
    rw [lookupActor] at h
    by_cases hx : x = a
    · rw [if_pos hx] at h; cases h
    · rw [if_neg hx] at h
      rw [List.cons_append, lookupActor, if_neg hx, ih i h]

/-! ## Claims -/

/-- C1 counterexample: the ledger's direct insert (`Booked::insert`) applies
no merge rule — at version 1 holding a `Partial`, inserting `Cleared`
silently stores the incoming state over the existing `Partial` entry, with
no fault of any kind, contradicting the claim that every such insert path
faults. -/
theorem c1_cex :
    lookupV 1 [((1, 1), KnownDbVersion.Part [(0, 0)] 3 9)] =
      some (KnownDbVersion.Part [(0, 0)] 3 9) ∧
    bookedInsert 1 KnownDbVersion.Cleared
        [((1, 1), KnownDbVersion.Part [(0, 0)] 3 9)] =
      [((1, 1), KnownDbVersion.Cleared)] ∧
    lookupV 1 (bookedInsert 1 KnownDbVersion.Cleared
        [((1, 1), KnownDbVersion.Part [(0, 0)] 3 9)]) =
      some KnownDbVersion.Cleared := by
  refine ⟨by decide, by decide, by decide⟩

/-- C1 (amended): only `BookWriter::insert`, and only for an incoming
`Partial`, enforces the merge contract: an incoming `Partial` whose
`last_seq` or `ts` differs from the `Partial` stored at the version panics
(fatal, non-silent). `Booked::insert` (hence `Bookie::add`) stores the
incoming state bare over the existing `Partial`, and `BookWriter::insert`
also silently stores incoming non-`Partial` states. -/
theorem c1_amended_thm (m : BookedM) (v : Int) (S S2 : List (Int × Int))
    (L L2 : Int) (T T2 : Timestamp) (kv : KnownDbVersion)
    (d dl : Int) (dt : Timestamp)
    (hswf : swf m = true)
    (hentry : lookupV v m = some (.Part S L T))
    (hdiff : L2 ≠ L ∨ T2 ≠ T) :
    isPanicked (writerInsert v (.Part S2 L2 T2) m) = true ∧
    lookupV v (bookedInsert v kv m) = some kv ∧
    writerInsert v (.Current d dl dt) m = .ok (mapInsert v (.Current d dl dt) m) ∧
    lookupV v (mapInsert v (.Current d dl dt) m) = some (.Current d dl dt) := by
  refine ⟨?_, ?_, rfl, ?_⟩
  · exact writer_mismatch_panics m v S S2 L L2 T T2 hentry (hdiff.imp Ne.symm Ne.symm)
  · exact lookupV_bookedInsert_self v kv m hswf
  · rw [lookupV_mapInsert v v _ m hswf, if_pos rfl]

/-- C1 witness: the amended claim at a concrete one-entry ledger. -/
theorem c1_witness :
    swf [((1, 1), KnownDbVersion.Part [(0, 0)] 3 9)] = true ∧
    lookupV 1 [((1, 1), KnownDbVersion.Part [(0, 0)] 3 9)] =
      some (KnownDbVersion.Part [(0, 0)] 3 9) ∧
    ((4 : Int) ≠ 3 ∨ (9 : Timestamp) ≠ 9) ∧
    (isPanicked (writerInsert 1 (KnownDbVersion.Part [(5, 5)] 4 9)
        [((1, 1), KnownDbVersion.Part [(0, 0)] 3 9)]) = true ∧
      lookupV 1 (bookedInsert 1 KnownDbVersion.Cleared
        [((1, 1), KnownDbVersion.Part [(0, 0)] 3 9)]) =
          some KnownDbVersion.Cleared ∧
      writerInsert 1 (KnownDbVersion.Current 10 0 9)
        [((1, 1), KnownDbVersion.Part [(0, 0)] 3 9)] =
        .ok (mapInsert 1 (KnownDbVersion.Current 10 0 9)
          [((1, 1), KnownDbVersion.Part [(0, 0)] 3 9)]) ∧
      lookupV 1 (mapInsert 1 (KnownDbVersion.Current 10 0 9)
        [((1, 1), KnownDbVersion.Part [(0, 0)] 3 9)]) =
          some (KnownDbVersion.Current 10 0 9)) :=
  ⟨by decide, by decide, by decide,
    c1_amended_thm [((1, 1), KnownDbVersion.Part [(0, 0)] 3 9)] 1
      [(0, 0)] [(5, 5)] 3 4 9 9 KnownDbVersion.Cleared 10 0 9
      (by decide) (by decide) (by decide)⟩

/-- C2 counterexample: two adjacent versions holding identical `Partial`
values are coalesced by the range map into one range `1..=2`; the entry at
version 2 is then that `Partial`, yet re-inserting the identical `Partial`
through the write handle panics on the non-singleton range key instead of
performing the claimed (idempotent) union merge. -/
theorem c2_cex :
    lookupV 2 (bookedInsert 2 (KnownDbVersion.Part [(0, 0)] 1 7)
        (bookedInsert 1 (KnownDbVersion.Part [(0, 0)] 1 7) [])) =
      some (KnownDbVersion.Part [(0, 0)] 1 7) ∧
    isPanicked (writerInsert 2 (KnownDbVersion.Part [(0, 0)] 1 7)
        (bookedInsert 2 (KnownDbVersion.Part [(0, 0)] 1 7)
          (bookedInsert 1 (KnownDbVersion.Part [(0, 0)] 1 7) []))) = true := by
  refine ⟨by decide, by decide⟩

/-- C2 (amended): provided the ledger stores version `v` under the singleton
range `v..=v` (that is, `v` has not been coalesced with an adjacent version
holding an identical `Partial`), inserting `Partial{S2, L, T}` over
`Partial{S1, L, T}` through `BookWriter::insert` succeeds, maps `v` to a
`Partial` whose `seqs` covers exactly the set union of `S1` and `S2` with
the same `last_seq` and `ts`, and re-inserting the identical `Partial` is a
no-op. -/
theorem c2_amended_thm (m : BookedM) (v : Int) (S1 S2 : List (Int × Int))
    (L : Int) (T : Timestamp)
    (hm : mwf m = true) (hS1 : rwf S1 = true)
    (hkey : getKeyValue v m = some ((v, v), .Part S1 L T)) :
    writerInsert v (.Part S2 L T) m =
      .ok (mapInsert v (.Part (rextend S2 S1) L T) m) ∧
    lookupV v (mapInsert v (.Part (rextend S2 S1) L T) m) =
      some (.Part (rextend S2 S1) L T) ∧
    rset (rextend S2 S1) = rset S1 ∪ rset S2 ∧
    writerInsert v (.Part S1 L T) m = .ok m := by
  refine ⟨writer_merge_ok m v S1 S2 L T hkey, ?_, rset_rextend S1 S2, ?_⟩
  · rw [lookupV_mapInsert v v _ m (mwf_to_swf m hm), if_pos rfl]
  · rw [writer_merge_ok m v S1 S1 L T hkey, rextend_self S1 hS1,
      mapInsert_self v (.Part S1 L T) m hm hkey]

/-- C2 witness: the amended claim at a concrete singleton-range ledger. -/
theorem c2_witness :
    mwf [((2, 2), KnownDbVersion.Part [(0, 0)] 5 7)] = true ∧
    rwf [(0, 0)] = true ∧
    getKeyValue 2 [((2, 2), KnownDbVersion.Part [(0, 0)] 5 7)] =
      some ((2, 2), KnownDbVersion.Part [(0, 0)] 5 7) ∧
    (writerInsert 2 (KnownDbVersion.Part [(3, 4)] 5 7)
        [((2, 2), KnownDbVersion.Part [(0, 0)] 5 7)] =
      .ok (mapInsert 2 (KnownDbVersion.Part (rextend [(3, 4)] [(0, 0)]) 5 7)
        [((2, 2), KnownDbVersion.Part [(0, 0)] 5 7)]) ∧
      lookupV 2 (mapInsert 2 (KnownDbVersion.Part (rextend [(3, 4)] [(0, 0)]) 5 7)
        [((2, 2), KnownDbVersion.Part [(0, 0)] 5 7)]) =
        some (KnownDbVersion.Part (rextend [(3, 4)] [(0, 0)]) 5 7) ∧
      rset (rextend [(3, 4)] [(0, 0)]) = rset [(0, 0)] ∪ rset [(3, 4)] ∧
      writerInsert 2 (KnownDbVersion.Part [(0, 0)] 5 7)
        [((2, 2), KnownDbVersion.Part [(0, 0)] 5 7)] =
        .ok [((2, 2), KnownDbVersion.Part [(0, 0)] 5 7)]) :=
  ⟨by decide, by decide, by decide,
    c2_amended_thm [((2, 2), KnownDbVersion.Part [(0, 0)] 5 7)] 2
      [(0, 0)] [(3, 4)] 5 7 (by decide) (by decide) (by decide)⟩

/-- C3: inserting through the write handle a `Partial` whose `last_seq` or
`ts` differs from the `Partial` stored at that version panics — a fatal,
non-silent fault; no merged or one-sided value is ever produced (a panic
result carries no map). -/
theorem c3_divergent_partial_panics (m : BookedM) (v : Int)
    (S1 S2 : List (Int × Int)) (L1 L2 : Int) (T1 T2 : Timestamp)
    (hentry : lookupV v m = some (.Part S1 L1 T1))
    (hdiff : L1 ≠ L2 ∨ T1 ≠ T2) :
    isPanicked (writerInsert v (.Part S2 L2 T2) m) = true :=
  writer_mismatch_panics m v S1 S2 L1 L2 T1 T2 hentry hdiff

/-- C3 witness: a divergent-timestamp `Partial` insert on a concrete
ledger panics. -/
theorem c3_witness :
    lookupV 4 [((4, 4), KnownDbVersion.Part [(0, 2)] 9 100)] =
      some (KnownDbVersion.Part [(0, 2)] 9 100) ∧
    ((9 : Int) ≠ 9 ∨ (100 : Timestamp) ≠ 101) ∧
    isPanicked (writerInsert 4 (KnownDbVersion.Part [(3, 3)] 9 101)
      [((4, 4), KnownDbVersion.Part [(0, 2)] 9 100)]) = true :=
  ⟨by decide, by decide,
    c3_divergent_partial_panics [((4, 4), KnownDbVersion.Part [(0, 2)] 9 100)]
      4 [(0, 2)] [(3, 3)] 9 9 100 101 (by decide) (by decide)⟩

/-- C4 counterexample: a constructible message whose changeset holds a
9000000-byte change serializes to a block larger than the codec's default
8 MiB `max_frame_length`; `Message::encode` then returns an io error, so
encode-then-decode does not succeed, contradicting the claim for every
constructible message. -/
theorem c4_cex :
    encodeMsg (Message.V1 (MessageV1.Change (List.replicate 16 0) 0
      [⟨List.replicate 9000000 0⟩])) [] = .error .Io := by
  have hlen : (serializeMessage (Message.V1 (MessageV1.Change (List.replicate 16 0) 0
      [⟨List.replicate 9000000 0⟩]))).length = 9000040 := by
    rw [serializeMessage, serializeChanges, serializeChanges, serializeChange]
    rw [show (⟨List.replicate 9000000 0⟩ : Change).bytes =
      List.replicate 9000000 0 from rfl]
    rw [intToLE8]
    rw [List.length_append, List.length_append, List.length_append,
      List.length_append, List.length_append, List.length_append,
      List.length_append]
    rw [natToLE_length, natToLE_length, natToLE_length, natToLE_length]
    rw [List.length_replicate, List.length_replicate, List.length_nil]
  simp only [encodeMsg]
  rw [if_pos]
  rw [List.nil_append, List.length_append, natToBE4_length, hlen]
  norm_num [maxFrameLen]

/-- C4 (amended): for every constructible message whose serialized payload
plus the 4 CRC bytes fits the codec's default 8 MiB `max_frame_length`,
encoding and then decoding (length-delimited frame extraction followed by
`Message::from_buf`) succeeds and returns a message equal to the
original. -/
theorem c4_amended_thm (m : Message) (hwf : wfMessage m = true)
    (hsz : (serializeMessage m).length + 4 ≤ maxFrameLen) :
    roundTrip m = some m :=
  roundTrip_ok m hwf hsz

/-- C4 witness: a small concrete message round-trips. -/
theorem c4_witness :
    wfMessage (Message.V1 (MessageV1.Change (List.replicate 16 1) (-5)
      [⟨[7, 8, 9]⟩])) = true ∧
    (serializeMessage (Message.V1 (MessageV1.Change (List.replicate 16 1) (-5)
      [⟨[7, 8, 9]⟩]))).length + 4 ≤ maxFrameLen ∧
    roundTrip (Message.V1 (MessageV1.Change (List.replicate 16 1) (-5)
      [⟨[7, 8, 9]⟩])) =
      some (Message.V1 (MessageV1.Change (List.replicate 16 1) (-5)
        [⟨[7, 8, 9]⟩])) :=
  ⟨by decide, by decide,
    c4_amended_thm (Message.V1 (MessageV1.Change (List.replicate 16 1) (-5)
      [⟨[7, 8, 9]⟩])) (by decide) (by decide)⟩

/-- C5 counterexample: for a message with an 8500000-byte change the block
exceeds the codec's default 8 MiB `max_frame_length`, so `Message::encode`
returns an io error and appends nothing, contradicting the per-message
byte-layout claim stated for every message. -/
theorem c5_cex :
    encodeMsg (Message.V1 (MessageV1.Change (List.replicate 16 2) 1
      [⟨List.replicate 8500000 3⟩])) [] = .error .Io := by
  have hlen : (serializeMessage (Message.V1 (MessageV1.Change (List.replicate 16 2) 1
      [⟨List.replicate 8500000 3⟩]))).length = 8500040 := by
    rw [serializeMessage, serializeChanges, serializeChanges, serializeChange]
    rw [show (⟨List.replicate 8500000 3⟩ : Change).bytes =
      List.replicate 8500000 3 from rfl]
    rw [intToLE8]
    rw [List.length_append, List.length_append, List.length_append,
      List.length_append, List.length_append, List.length_append,
      List.length_append]
    rw [natToLE_length, natToLE_length, natToLE_length, natToLE_length]
    rw [List.length_replicate, List.length_replicate, List.length_nil]
  simp only [encodeMsg]
  rw [if_pos]
  rw [List.nil_append, List.length_append, natToBE4_length, hlen]
  norm_num [maxFrameLen]

/-- C5 (amended): provided the buffer contents plus serialized payload plus
4 CRC bytes fit the codec's default 8 MiB `max_frame_length`,
`Message::encode` produces exactly: a 4-byte big-endian length prefix
counting the payload plus 4 CRC bytes, the deterministically serialized
payload, and the 4-byte big-endian CRC-32 (IEEE) over exactly those payload
bytes — with an empty output buffer this is exactly the claimed layout
(with a nonempty buffer the preexisting bytes are folded into the frame's
payload rather than left in front of it). -/
theorem c5_amended_thm (m : Message) (buf : List Nat)
    (hsz : (buf ++ serializeMessage m).length + 4 ≤ maxFrameLen) :
    encodeMsg m buf = .ok
      (natToBE4 ((buf ++ serializeMessage m).length + 4) ++
        ((buf ++ serializeMessage m) ++
          natToBE4 (crc32 (buf ++ serializeMessage m)))) := by
  rw [encodeMsg_ok m buf hsz, List.length_append, natToBE4_length]

/-- C5 witness: the exact frame layout for a small message on an empty
buffer. -/
theorem c5_witness :
    (([] ++ serializeMessage (Message.V1 (MessageV1.Change (List.replicate 16 0) 3
      [⟨[1, 2]⟩]))).length + 4 ≤ maxFrameLen) ∧
    encodeMsg (Message.V1 (MessageV1.Change (List.replicate 16 0) 3 [⟨[1, 2]⟩])) [] =
      .ok (natToBE4 (([] ++ serializeMessage (Message.V1 (MessageV1.Change
            (List.replicate 16 0) 3 [⟨[1, 2]⟩]))).length + 4) ++
        (([] ++ serializeMessage (Message.V1 (MessageV1.Change
            (List.replicate 16 0) 3 [⟨[1, 2]⟩]))) ++
          natToBE4 (crc32 ([] ++ serializeMessage (Message.V1 (MessageV1.Change
            (List.replicate 16 0) 3 [⟨[1, 2]⟩])))))) :=
  ⟨by decide,
    c5_amended_thm (Message.V1 (MessageV1.Change (List.replicate 16 0) 3
      [⟨[1, 2]⟩])) [] (by decide)⟩

/-- C6: on a de-length-delimited frame of at least 4 bytes whose trailing
4 bytes, read big-endian, differ from the CRC-32 recomputed over the
preceding bytes, `Message::from_buf` returns the `Corrupted` error carrying
the found and recomputed CRC values, and produces no message. -/
theorem c6_crc_mismatch (buf : List Nat) (h4 : 4 ≤ buf.length)
    (hcrc : beToNat (buf.drop (buf.length - 4)) ≠ crc32 (buf.take (buf.length - 4))) :
    fromBuf buf = .err (.Corrupted (beToNat (buf.drop (buf.length - 4)))
      (crc32 (buf.take (buf.length - 4)))) := by
  simp only [fromBuf]
  rw [if_neg (by omega), if_pos hcrc]

/-- C6 witness: a concrete 5-byte frame with a wrong CRC trailer is
rejected as corrupted with both values reported. -/
theorem c6_witness :
    4 ≤ [1, 0, 0, 0, 0].length ∧
    beToNat ([1, 0, 0, 0, 0].drop ([1, 0, 0, 0, 0].length - 4)) ≠
      crc32 ([1, 0, 0, 0, 0].take ([1, 0, 0, 0, 0].length - 4)) ∧
    fromBuf [1, 0, 0, 0, 0] =
      .err (.Corrupted (beToNat ([1, 0, 0, 0, 0].drop ([1, 0, 0, 0, 0].length - 4)))
        (crc32 ([1, 0, 0, 0, 0].take ([1, 0, 0, 0, 0].length - 4)))) :=
  ⟨by decide, by decide, c6_crc_mismatch [1, 0, 0, 0, 0] (by decide) (by decide)⟩

/-- C7: folding `Booked::insert` of `Current` states at strictly increasing
versions over an empty ledger yields a ledger whose contained-version set is
exactly the inserted versions, and whose `last()` equals the maximum of the
inserted versions (`listMax`, which is `some` of the maximum for a nonempty
sequence — see `listMax_mem` and `listMax_ge`). -/
theorem c7_strict_current_inserts (l : List (Int × KnownDbVersion))
    (hinc : List.Pairwise (· < ·) (l.map Prod.fst))
    (hcur : l.all (fun p => isCurrent p.2) = true) :
    keySet (insertAll l []) = listSet (l.map Prod.fst) ∧
    bookedLast (insertAll l []) = listMax (l.map Prod.fst) := by
  constructor
  · ext x
    show containsKey x (insertAll l []) = true ↔ x ∈ l.map Prod.fst
    rw [insertAll_contains_iff l [] rfl x]
    simp [containsKey, getKeyValue]
  · cases l with
    | nil => rfl
    | cons p t =>
      have hswf : swf (insertAll (p :: t) []) = true := insertAll_swf _ [] rfl
      have hcont : containsKey p.1 (insertAll (p :: t) []) = true :=
        (insertAll_contains_iff (p :: t) [] rfl p.1).mpr (Or.inr (by simp))
      rw [bookedLast]
      cases hE : lastVer (insertAll (p :: t) []) with
      | none =>
        rw [lastVer] at hE
        have hm0 : insertAll (p :: t) [] = [] :=
          List.map_eq_nil_iff.mp ((listMax_eq_none _).mp hE)
        rw [hm0] at hcont
        exact absurd hcont (by simp [containsKey, getKeyValue])
      | some E =>
        obtain ⟨hEc, hEb⟩ := lastVer_spec _ hswf E hE
        have hEv : E ∈ (p :: t).map Prod.fst :=
          ((insertAll_contains_iff _ [] rfl E).mp hEc).resolve_left
            (by simp [containsKey, getKeyValue])
        cases hE' : listMax ((p :: t).map Prod.fst) with
        | none => exact absurd ((listMax_eq_none _).mp hE') (by simp)
        | some E' =>
          have h1 : E ≤ E' := listMax_ge _ E' hE' E hEv
          have h2 : E' ≤ E := hEb E'
            ((insertAll_contains_iff _ [] rfl E').mpr (Or.inr (listMax_mem _ E' hE')))
          congr 1
          omega

/-- C7 witness: two strictly increasing `Current` inserts on an empty
ledger. -/
theorem c7_witness :
    List.Pairwise (· < ·)
      (([(1, KnownDbVersion.Current 10 0 5), (3, KnownDbVersion.Current 11 0 6)].map
        Prod.fst)) ∧
    [(1, KnownDbVersion.Current 10 0 5),
      (3, KnownDbVersion.Current 11 0 6)].all (fun p => isCurrent p.2) = true ∧
    (keySet (insertAll [(1, KnownDbVersion.Current 10 0 5),
        (3, KnownDbVersion.Current 11 0 6)] []) =
      listSet ([(1, KnownDbVersion.Current 10 0 5),
        (3, KnownDbVersion.Current 11 0 6)].map Prod.fst) ∧
      bookedLast (insertAll [(1, KnownDbVersion.Current 10 0 5),
        (3, KnownDbVersion.Current 11 0 6)] []) =
      listMax ([(1, KnownDbVersion.Current 10 0 5),
        (3, KnownDbVersion.Current 11 0 6)].map Prod.fst)) :=
  ⟨by decide, by decide,
    c7_strict_current_inserts
      [(1, KnownDbVersion.Current 10 0 5), (3, KnownDbVersion.Current 11 0 6)]
      (by decide) (by decide)⟩

/-- C8: `Bookie::for_actor` is idempotent — a second call for the same
actor returns the same shared-ledger handle, leaves the registry state
unchanged (in particular it creates no new ledger), and both handles
observe the same version states; this includes the case where the actor was
unknown before the first call. -/
theorem c8_for_actor_idempotent (s : BookieSt) (a : ActorId) :
    (forActor (forActor s a).2 a).1 = (forActor s a).1 ∧
    (forActor (forActor s a).2 a).2 = (forActor s a).2 ∧
    ((forActor (forActor s a).2 a).2).store.length = ((forActor s a).2).store.length ∧
    bookieLedger (forActor (forActor s a).2 a).2 (forActor (forActor s a).2 a).1 =
      bookieLedger (forActor s a).2 (forActor s a).1 := by
  cases hl : lookupActor a s.ledgers with
  | some i => simp [forActor, hl]
  | none =>
    have h2 : lookupActor a (s.ledgers ++ [(a, s.store.length)]) =
        some s.store.length :=
      lookupActor_append_self a s.ledgers s.store.length hl
    simp [forActor, hl, h2]

/-- C9: the dispatch adapter's cached `active` flag follows exactly the
spec's transition function — true only after an Active notification, false
only after Idle or Defunct, unchanged for every other notification kind —
and `send_to` / `submit_after` never touch it. -/
theorem c9_active_flag (T : Type) (rt : DispatchRuntime T) (n : FocaNotification T)
    (dest : T) (data : List Nat) (event : Timer T) (after : Nat) :
    (notify rt n).active = specActiveAfter n rt.active ∧
    (sendTo rt dest data).active = rt.active ∧
    (submitAfter rt event after).active = rt.active := by
  refine ⟨?_, rfl, rfl⟩
  cases n <;> rfl

/-- C10: `Message::from_buf` requires at least 4 bytes — on any shorter
buffer the `split_off(len - 4)` underflows and panics instead of returning
a `MessageDecodeError`. -/
theorem c10_short_frame_panics (buf : List Nat) (h : buf.length < 4) :
    fromBuf buf = .panicked := by
  simp only [fromBuf]
  rw [if_pos h]

/-- C10 witness: the empty frame (produced by a zero length prefix)
panics. -/
theorem c10_witness : ([] : List Nat).length < 4 ∧ fromBuf [] = .panicked :=
  ⟨by decide, c10_short_frame_panics [] (by decide)⟩
